import Mathlib

/-!
Verification of the expression-graph automatic-differentiation library
(`ad.py`): a DAG of expression nodes (Variable, Constant, and the binary
operations Addition, Subtraction, Multiplication, Division) with memoized
recursive evaluation (`eval` / `_eval`) and forward-mode differentiation
(`d` / `_d`).

Modelling choices:
- Python objects become an inductive type `Expression`; every node carries
  a `Nat` field modelling its object identity (`id(self)` in the source).
  Sharing of one node by several parents is modelled by two subterms having
  the same identity; the well-formedness predicate `WF` states that equal
  identities imply equal subterms, which is exactly what Python's `id`
  guarantees for live objects.
- Python numbers become `ℚ` (exact arithmetic).
- The mutable dictionaries `feed_dict`, `cache_dict`, `e_cache_dict` and
  `d_cache_dict` become association lists threaded through the recursion;
  dictionary insertion is modelled by consing (the most recent binding
  shadows older ones, as overwriting does).
- `raise ValueError('Unbound variable %s' % self.name)` becomes the
  `Except` error `EvalErr.unboundVariable name`.
-/
namespace AD

/-- Kinds of binary operation nodes: Addition, Subtraction, Multiplication
and Division from `ad.py`. -/
inductive Op where
  | add
  | sub
  | mul
  | div
deriving DecidableEq

/-- Expression nodes, mirroring the class hierarchy of `ad.py`:
`Variable(name, grad=True)`, `Constant(val, grad=False)` and the `Binop`
subclasses.  The first `Nat` field of each constructor is the node's object
identity (`id(self)`); the `Bool` field is the `grad` attribute. -/
inductive Expression where
  | var (id : Nat) (name : String) (grad : Bool)
  | const (id : Nat) (val : ℚ) (grad : Bool)
  | binop (id : Nat) (op : Op) (grad : Bool) (e1 e2 : Expression)
deriving DecidableEq

/-- Association-list lookup, modelling Python dictionary lookup
(`k in d` / `d[k]`). -/
def alookup {α β : Type} [DecidableEq α] (k : α) : List (α × β) → Option β
  | [] => none
  | (a, b) :: rest => if k = a then some b else alookup k rest

/-- The environment (`feed_dict`): one Python dict whose keys are either
`Variable` instances (here: their identities) or variable-name strings.
The two key kinds never collide, so the dict splits into two lists. -/
structure Env where
  byInst : List (Nat × ℚ)
  byName : List (String × ℚ)

/-- The single error of the library: `ValueError('Unbound variable %s')`
raised by `Variable._eval`, carrying the variable's name. -/
inductive EvalErr where
  | unboundVariable (name : String)
deriving DecidableEq

/-- A memoization cache (`cache_dict` / `e_cache_dict` / `d_cache_dict`):
a map from node identity `id(self)` to a computed value. -/
abbrev Cache := List (Nat × ℚ)

/-- The environment lookup chain of `Variable._eval`: `if self in feed_dict`
first, `elif self.name in feed_dict` second. -/
def lookupVar (env : Env) (i : Nat) (nm : String) : Option ℚ :=
  match alookup i env.byInst with
  | some v => some v
  | none => alookup nm env.byName

/-- The arithmetic performed by each `Binop._eval`:
`res1 + res2`, `res1 - res2`, `res1 * res2`, `res1 / res2`. -/
def Op.apply : Op → ℚ → ℚ → ℚ
  | .add, a, b => a + b
  | .sub, a, b => a - b
  | .mul, a, b => a * b
  | .div, a, b => a / b

/-- The recursive evaluator `_eval(feed_dict, cache_dict)`:
`Variable._eval` looks the variable up (instance first, then name) and
raises on failure; `Constant._eval` returns its stored value; each
`Binop._eval` first consults `cache_dict` keyed by `id(self)`, otherwise
evaluates both children left to right, stores the combined result in the
cache and returns it. -/
def Expression.evalC : Expression → Env → Cache → Except EvalErr (ℚ × Cache)
  | .var _i nm _, env, c =>
      match lookupVar env _i nm with
      | some v => .ok (v, c)
      | none => .error (.unboundVariable nm)
  | .const _ v _, _, c => .ok (v, c)
  | .binop i op _ e1 e2, env, c =>
      match alookup i c with
      | some v => .ok (v, c)
      | none =>
        match e1.evalC env c with
        | .error e => .error e
        | .ok (r1, c1) =>
          match e2.evalC env c1 with
          | .error e => .error e
          | .ok (r2, c2) => .ok (op.apply r1 r2, (i, op.apply r1 r2) :: c2)

/-- The public entry point `Expression.eval(feed_dict)`: runs `_eval` with
a freshly allocated empty cache (`dict()`). -/
def Expression.eval (e : Expression) (env : Env) : Except EvalErr ℚ :=
  match e.evalC env [] with
  | .ok (v, _) => .ok v
  | .error err => .error err

/-- The recursive differentiator `_d(feed_dict, e_cache_dict, d_cache_dict)`:
`Variable._d` returns `1.0` (without consulting the environment);
`Constant._d` returns `0`; each `Binop._d` first consults `d_cache_dict`
keyed by `id(self)`, otherwise differentiates both children, and for
Multiplication and Division additionally evaluates both children through
`_eval` with the shared `e_cache_dict`, combining by the sum, difference,
product and quotient rules exactly as written in the source. -/
def Expression.dC : Expression → Env → Cache → Cache → Except EvalErr (ℚ × Cache × Cache)
  | .var _ _ _, _, ec, dc => .ok (1, ec, dc)
  | .const _ _ _, _, ec, dc => .ok (0, ec, dc)
  | .binop i op _ e1 e2, env, ec, dc =>
      match alookup i dc with
      | some v => .ok (v, ec, dc)
      | none =>
        match e1.dC env ec dc with
        | .error e => .error e
        | .ok (d1, ec1, dc1) =>
          match e2.dC env ec1 dc1 with
          | .error e => .error e
          | .ok (d2, ec2, dc2) =>
            match op with
            | .add => .ok (d1 + d2, ec2, (i, d1 + d2) :: dc2)
            | .sub => .ok (d1 - d2, ec2, (i, d1 - d2) :: dc2)
            | .mul =>
              match e1.evalC env ec2 with
              | .error e => .error e
              | .ok (r1, ec3) =>
                match e2.evalC env ec3 with
                | .error e => .error e
                | .ok (r2, ec4) =>
                  .ok (r1 * d2 + r2 * d1, ec4, (i, r1 * d2 + r2 * d1) :: dc2)
            | .div =>
              match e1.evalC env ec2 with
              | .error e => .error e
              | .ok (r1, ec3) =>
                match e2.evalC env ec3 with
                | .error e => .error e
                | .ok (r2, ec4) =>
                  .ok (d1 / r2 - d2 * r1 / (r2 * r2), ec4,
                       (i, d1 / r2 - d2 * r1 / (r2 * r2)) :: dc2)

/-- The public entry point `Expression.d(feed_dict)`: runs `_d` with two
freshly allocated empty caches. -/
def Expression.d (e : Expression) (env : Env) : Except EvalErr ℚ :=
  match e.dC env [] [] with
  | .ok (v, _, _) => .ok v
  | .error err => .error err

/-- Object identity `id(self)` of a node. -/
def Expression.nodeId : Expression → Nat
  | .var i _ _ => i
  | .const i _ _ => i
  | .binop i _ _ _ _ => i

/-- The `grad` attribute of a node. -/
def Expression.gradOf : Expression → Bool
  | .var _ _ g => g
  | .const _ _ g => g
  | .binop _ _ g _ _ => g

/-- All nodes of the object graph reachable from a root (the root, then
recursively the children of every `Binop`).  A node shared by several
parents appears once per reference. -/
def Expression.nodes : Expression → List Expression
  | e@(.var _ _ _) => [e]
  | e@(.const _ _ _) => [e]
  | e@(.binop _ _ _ e1 e2) => e :: (e1.nodes ++ e2.nodes)

/-- Number of nodes of the tree unfolding (counting repeats). -/
def Expression.size : Expression → Nat
  | .var _ _ _ => 1
  | .const _ _ _ => 1
  | .binop _ _ _ e1 e2 => e1.size + e2.size + 1

/-- Well-formedness of the identity annotation: two reachable nodes with
the same identity are the same node.  This is exactly the guarantee that
Python's `id` gives for the live objects of one graph. -/
def WF (g : Expression) : Prop :=
  ∀ s ∈ g.nodes, ∀ t ∈ g.nodes, s.nodeId = t.nodeId → s = t

instance (g : Expression) : Decidable (WF g) :=
  decidable_of_iff (∀ s ∈ g.nodes, ∀ t ∈ g.nodes, s.nodeId = t.nodeId → s = t) Iff.rfl

/-- Identities of all reachable `Binop` nodes (with repeats for shared
references). -/
def Expression.binopIds : Expression → List Nat
  | .var _ _ _ => []
  | .const _ _ _ => []
  | .binop i _ _ e1 e2 => i :: (e1.binopIds ++ e2.binopIds)

/-- Structure of an expression with the identities of `Constant` and
`Binop` nodes forgotten.  Variable identities are kept because the
environment may be keyed by them.  Two graphs with the same erasure are
"structurally identical" in the sense of the specification: duplicating a
shared internal node into independent fresh copies does not change the
erasure. -/
inductive PExpr where
  | var (id : Nat) (name : String)
  | const (val : ℚ)
  | binop (op : Op) (e1 e2 : PExpr)
deriving DecidableEq

/-- Erasure of an expression graph to its structure. -/
def Expression.erase : Expression → PExpr
  | .var i nm _ => .var i nm
  | .const _ v _ => .const v
  | .binop _ op _ e1 e2 => .binop op e1.erase e2.erase

/-- Reference semantics: cache-free recursive evaluation of the tree
unfolding, with the same variable lookup chain and error as `_eval`. -/
def evalPure (env : Env) : PExpr → Except EvalErr ℚ
  | .var i nm =>
      match lookupVar env i nm with
      | some v => .ok v
      | none => .error (.unboundVariable nm)
  | .const v => .ok v
  | .binop op e1 e2 =>
      match evalPure env e1 with
      | .error e => .error e
      | .ok r1 =>
        match evalPure env e2 with
        | .error e => .error e
        | .ok r2 => .ok (op.apply r1 r2)

/-- The variables occurring in a structure, with their identities. -/
def PExpr.vars : PExpr → List (Nat × String)
  | .var i nm => [(i, nm)]
  | .const _ => []
  | .binop _ e1 e2 => e1.vars ++ e2.vars

/-- Cache consistency: every cached value agrees with the reference
semantics of every reachable node carrying that identity. -/
def Consistent (env : AD.Env) (g : AD.Expression) (c : AD.Cache) : Prop :=
  ∀ i v, alookup i c = some v →
    ∀ s ∈ g.nodes, s.nodeId = i → evalPure env s.erase = .ok v

/-- Instrumented evaluator: identical to `_eval` but additionally records,
in order, the identity of every `Binop` node whose arithmetic is actually
performed (the cache-miss branch), modelling the call-count hook of the
specification.  Cache hits and leaves record nothing. -/
def Expression.evalT : Expression → AD.Env → AD.Cache →
    Except AD.EvalErr (ℚ × AD.Cache × List Nat)
  | .var _i nm _, env, c =>
      match lookupVar env _i nm with
      | some v => .ok (v, c, [])
      | none => .error (.unboundVariable nm)
  | .const _ v _, _, c => .ok (v, c, [])
  | .binop i op _ e1 e2, env, c =>
      match alookup i c with
      | some v => .ok (v, c, [])
      | none =>
        match e1.evalT env c with
        | .error e => .error e
        | .ok (r1, c1, l1) =>
          match e2.evalT env c1 with
          | .error e => .error e
          | .ok (r2, c2, l2) =>
            .ok (op.apply r1 r2, (i, op.apply r1 r2) :: c2, l1 ++ l2 ++ [i])

/-- Cache closure: whenever a `Binop` node's identity is cached, the
identities of all `Binop` nodes beneath it are cached as well.  Holds of
every cache `_eval` produces from the empty one. -/
def Closed (g : AD.Expression) (c : AD.Cache) : Prop :=
  ∀ i op gr e1 e2, AD.Expression.binop i op gr e1 e2 ∈ g.nodes →
    (alookup i c).isSome →
    ∀ j ∈ (AD.Expression.binop i op gr e1 e2).binopIds, (alookup j c).isSome

/- The `grad` flag is never consulted by evaluation or differentiation. -/

/-- Setting every `grad` flag to `False` while keeping everything else. -/
def Expression.eraseGrad : Expression → Expression
  | .var i nm _ => .var i nm false
  | .const i v _ => .const i v false
  | .binop i op _ e1 e2 => .binop i op false e1.eraseGrad e2.eraseGrad

/- Termination: fuel-bounded recursion.  `evalFuel` and `dFuel` execute the
same recursion as `_eval` and `_d` but return `none` when the recursion
depth exceeds the fuel; showing that fuel `size` suffices proves that the
recursive calls of the source run to completion on every finite graph. -/

/-- Fuel-bounded version of `_eval`; `none` models a recursion that does
not complete within the given depth budget. -/
def evalFuel : Nat → AD.Expression → AD.Env → AD.Cache →
    Option (Except AD.EvalErr (ℚ × AD.Cache))
  | 0, _, _, _ => none
  | _ + 1, .var _i nm _, env, c =>
      match lookupVar env _i nm with
      | some v => some (.ok (v, c))
      | none => some (.error (.unboundVariable nm))
  | _ + 1, .const _ v _, _, c => some (.ok (v, c))
  | n + 1, .binop i op _ e1 e2, env, c =>
      match alookup i c with
      | some v => some (.ok (v, c))
      | none =>
        match evalFuel n e1 env c with
        | none => none
        | some (.error e) => some (.error e)
        | some (.ok (r1, c1)) =>
          match evalFuel n e2 env c1 with
          | none => none
          | some (.error e) => some (.error e)
          | some (.ok (r2, c2)) => some (.ok (op.apply r1 r2, (i, op.apply r1 r2) :: c2))

/-- Fuel-bounded version of `_d`. -/
def dFuel : Nat → AD.Expression → AD.Env → AD.Cache → AD.Cache →
    Option (Except AD.EvalErr (ℚ × AD.Cache × AD.Cache))
  | 0, _, _, _, _ => none
  | _ + 1, .var _ _ _, _, ec, dc => some (.ok (1, ec, dc))
  | _ + 1, .const _ _ _, _, ec, dc => some (.ok (0, ec, dc))
  | n + 1, .binop i op _ e1 e2, env, ec, dc =>
      match alookup i dc with
      | some v => some (.ok (v, ec, dc))
      | none =>
        match dFuel n e1 env ec dc with
        | none => none
        | some (.error e) => some (.error e)
        | some (.ok (d1, ec1, dc1)) =>
          match dFuel n e2 env ec1 dc1 with
          | none => none
          | some (.error e) => some (.error e)
          | some (.ok (d2, ec2, dc2)) =>
            match op with
            | .add => some (.ok (d1 + d2, ec2, (i, d1 + d2) :: dc2))
            | .sub => some (.ok (d1 - d2, ec2, (i, d1 - d2) :: dc2))
            | .mul =>
              match evalFuel n e1 env ec2 with
              | none => none
              | some (.error e) => some (.error e)
              | some (.ok (r1, ec3)) =>
                match evalFuel n e2 env ec3 with
                | none => none
                | some (.error e) => some (.error e)
                | some (.ok (r2, ec4)) =>
                  some (.ok (r1 * d2 + r2 * d1, ec4, (i, r1 * d2 + r2 * d1) :: dc2))
            | .div =>
              match evalFuel n e1 env ec2 with
              | none => none
              | some (.error e) => some (.error e)
              | some (.ok (r1, ec3)) =>
                match evalFuel n e2 env ec3 with
                | none => none
                | some (.error e) => some (.error e)
                | some (.ok (r2, ec4)) =>
                  some (.ok (d1 / r2 - d2 * r1 / (r2 * r2), ec4,
                             (i, d1 / r2 - d2 * r1 / (r2 * r2)) :: dc2))

/- Construction by operator composition (`__add__`, `__radd__`, `__sub__`,
`__rsub__`, `__mul__`, `__rmul__`).  The right operand of a Python binary
operator is either another `Expression` or a plain number. -/

/-- The `other` argument of the operator methods: an `Expression` node or a
raw numeric literal. -/
inductive Operand where
  | expr (e : Expression)
  | lit (v : ℚ)

/-- The method `Expression.__add__(self, other)`: when `other` is an
expression (`other.grad` exists), builds `Addition(self, other,
grad=(other.grad and self.grad))`; otherwise the `AttributeError` branch
builds `Addition(self, Constant(other), grad=self.grad)` where
`Constant(other)` has the default `grad=False`.  `i` is the identity of the
new node, `j` the identity of the coerced constant. -/
def Expression.pyAdd (self : Expression) (other : Operand) (i j : Nat) : Expression :=
  match other with
  | .expr o => .binop i .add (o.gradOf && self.gradOf) self o
  | .lit v => .binop i .add self.gradOf self (.const j v false)

/-- The method `Expression.__radd__(self, other)`: delegates to `__add__`. -/
def Expression.pyRadd (self : Expression) (other : Operand) (i j : Nat) : Expression :=
  self.pyAdd other i j

/-- The method `Expression.__sub__(self, other)`: `Subtraction(self, other,
grad=(other.grad and self.grad))`, or with `other` coerced to a `Constant`
and `grad=self.grad` on `AttributeError`. -/
def Expression.pySub (self : Expression) (other : Operand) (i j : Nat) : Expression :=
  match other with
  | .expr o => .binop i .sub (o.gradOf && self.gradOf) self o
  | .lit v => .binop i .sub self.gradOf self (.const j v false)

/-- The method `Expression.__rsub__(self, other)`: `Subtraction(other, self,
grad=(other.grad and self.grad))`, or `Subtraction(Constant(other), self,
grad=self.grad)` on `AttributeError` — the operand order is reversed. -/
def Expression.pyRsub (self : Expression) (other : Operand) (i j : Nat) : Expression :=
  match other with
  | .expr o => .binop i .sub (o.gradOf && self.gradOf) o self
  | .lit v => .binop i .sub self.gradOf (.const j v false) self

/-- The method `Expression.__mul__(self, other)`: `Multiplication(self,
other, grad=(other.grad and self.grad))`, with the same coercion rule. -/
def Expression.pyMul (self : Expression) (other : Operand) (i j : Nat) : Expression :=
  match other with
  | .expr o => .binop i .mul (o.gradOf && self.gradOf) self o
  | .lit v => .binop i .mul self.gradOf self (.const j v false)

/-- The method `Expression.__rmul__(self, other)`: delegates to `__mul__`. -/
def Expression.pyRmul (self : Expression) (other : Operand) (i j : Nat) : Expression :=
  self.pyMul other i j

/-- The binary-operator special methods Python consults when an expression
meets `+`, `-`, `*` or `/`.  `truediv` and `rtruediv` are listed because
`e / x` and `x / e` look them up on the `Expression` class. -/
inductive DunderOp where
  | add
  | radd
  | sub
  | rsub
  | mul
  | rmul
  | truediv
  | rtruediv
deriving DecidableEq

/-- The operator method table of class `Expression`: the class defines
exactly `__add__`, `__radd__`, `__sub__`, `__rsub__`, `__mul__` and
`__rmul__`.  No `__truediv__` or `__rtruediv__` method exists in the
source, so looking those up yields nothing and Python raises `TypeError`;
this is modelled by `none`. -/
def dispatch : DunderOp → AD.Expression → Operand → Nat → Nat → Option AD.Expression
  | .add, self, other, i, j => some (self.pyAdd other i j)
  | .radd, self, other, i, j => some (self.pyRadd other i j)
  | .sub, self, other, i, j => some (self.pySub other i j)
  | .rsub, self, other, i, j => some (self.pyRsub other i j)
  | .mul, self, other, i, j => some (self.pyMul other i j)
  | .rmul, self, other, i, j => some (self.pyRmul other i j)
  | .truediv, _, _, _, _ => none
  | .rtruediv, _, _, _, _ => none

/-- Whether a node is a `Division` node. -/
def Expression.isDiv : Expression → Bool
  | .binop _ .div _ _ _ => true
  | _ => false

/- Structural lemmas about `nodes` and `size`. -/

lemma mem_nodes_self (g : AD.Expression) : g ∈ g.nodes := by
  cases g <;> simp [Expression.nodes]

lemma mem_nodes_trans {g s t : AD.Expression} (hts : t ∈ s.nodes) (hsg : s ∈ g.nodes) :
    t ∈ g.nodes := by
  induction g with
  | var i nm gr => simp [Expression.nodes] at hsg; subst hsg; exact hts
  | const i v gr => simp [Expression.nodes] at hsg; subst hsg; exact hts
  | binop i op gr e1 e2 ih1 ih2 =>
    simp [Expression.nodes] at hsg ⊢
    rcases hsg with h | h | h
    · subst h
      simp [Expression.nodes] at hts
      exact hts
    · exact Or.inr (Or.inl (ih1 h))
    · exact Or.inr (Or.inr (ih2 h))

lemma size_pos (g : AD.Expression) : 1 ≤ g.size := by
  cases g <;> simp [Expression.size]

lemma size_le_of_mem_nodes {g t : AD.Expression} (h : t ∈ g.nodes) : t.size ≤ g.size := by
  induction g with
  | var i nm gr => simp [Expression.nodes] at h; subst h; exact le_rfl
  | const i v gr => simp [Expression.nodes] at h; subst h; exact le_rfl
  | binop i op gr e1 e2 ih1 ih2 =>
    simp [Expression.nodes] at h
    rcases h with h | h | h
    · subst h; exact le_rfl
    · have := ih1 h; simp [Expression.size]; omega
    · have := ih2 h; simp [Expression.size]; omega

lemma child1_mem_nodes (i : Nat) (op : AD.Op) (gr : Bool) (e1 e2 : AD.Expression) :
    e1 ∈ (AD.Expression.binop i op gr e1 e2).nodes := by
  simp [Expression.nodes]
  exact Or.inr (Or.inl (mem_nodes_self e1))

lemma child2_mem_nodes (i : Nat) (op : AD.Op) (gr : Bool) (e1 e2 : AD.Expression) :
    e2 ∈ (AD.Expression.binop i op gr e1 e2).nodes := by
  simp [Expression.nodes]
  exact Or.inr (Or.inr (mem_nodes_self e2))

/-- A `Binop` node is not reachable from its own children (sizes decrease
strictly). -/
lemma not_mem_child_nodes {i : Nat} {op : AD.Op} {gr : Bool} {e1 e2 : AD.Expression} :
    AD.Expression.binop i op gr e1 e2 ∉ e1.nodes ∧
    AD.Expression.binop i op gr e1 e2 ∉ e2.nodes := by
  constructor
  · intro h
    have h1 := size_le_of_mem_nodes h
    have h2 := size_pos e2
    simp [Expression.size] at h1
    omega
  · intro h
    have h1 := size_le_of_mem_nodes h
    have h2 := size_pos e1
    simp [Expression.size] at h1
    omega

/-- An identity in `binopIds` comes from a reachable `Binop` node. -/
lemma exists_binop_of_mem_binopIds {g : AD.Expression} {i : Nat} (h : i ∈ g.binopIds) :
    ∃ op gr e1 e2, AD.Expression.binop i op gr e1 e2 ∈ g.nodes := by
  induction g with
  | var j nm gr => simp [Expression.binopIds] at h
  | const j v gr => simp [Expression.binopIds] at h
  | binop j op gr e1 e2 ih1 ih2 =>
    simp [Expression.binopIds] at h
    rcases h with h | h | h
    · subst h
      exact ⟨op, gr, e1, e2, mem_nodes_self _⟩
    · obtain ⟨op', gr', f1, f2, hmem⟩ := ih1 h
      exact ⟨op', gr', f1, f2, mem_nodes_trans hmem (child1_mem_nodes _ _ _ _ _)⟩
    · obtain ⟨op', gr', f1, f2, hmem⟩ := ih2 h
      exact ⟨op', gr', f1, f2, mem_nodes_trans hmem (child2_mem_nodes _ _ _ _ _)⟩

/-- In a well-formed graph, a `Binop` node's identity does not occur among
the `Binop` identities of its children. -/
lemma nodeId_not_in_child_binopIds {g : AD.Expression} (hwf : AD.WF g)
    {i : Nat} {op : AD.Op} {gr : Bool} {e1 e2 : AD.Expression}
    (hmem : AD.Expression.binop i op gr e1 e2 ∈ g.nodes) :
    i ∉ e1.binopIds ∧ i ∉ e2.binopIds := by
  constructor
  · intro h
    obtain ⟨op', gr', f1, f2, ht⟩ := exists_binop_of_mem_binopIds h
    have ht' : AD.Expression.binop i op' gr' f1 f2 ∈ g.nodes :=
      mem_nodes_trans ht (mem_nodes_trans (child1_mem_nodes i op gr e1 e2) hmem)
    have heq := hwf _ ht' _ hmem (by simp [Expression.nodeId])
    rw [heq] at ht
    exact not_mem_child_nodes.1 ht
  · intro h
    obtain ⟨op', gr', f1, f2, ht⟩ := exists_binop_of_mem_binopIds h
    have ht' : AD.Expression.binop i op' gr' f1 f2 ∈ g.nodes :=
      mem_nodes_trans ht (mem_nodes_trans (child2_mem_nodes i op gr e1 e2) hmem)
    have heq := hwf _ ht' _ hmem (by simp [Expression.nodeId])
    rw [heq] at ht
    exact not_mem_child_nodes.2 ht

lemma consistent_nil (env : AD.Env) (g : AD.Expression) : Consistent env g [] := by
  intro i v h
  simp [alookup] at h

/-- Memoized evaluation agrees with the reference semantics: starting from
any consistent cache, `_eval` of a reachable node returns exactly what the
cache-free evaluation of its structure returns (and leaves the cache
consistent). -/
lemma evalC_pure (env : AD.Env) (g : AD.Expression) (hwf : AD.WF g) :
    ∀ s : AD.Expression, s ∈ g.nodes → ∀ c, Consistent env g c →
    ∃ c', s.evalC env c = Except.map (fun v => (v, c')) (evalPure env s.erase) ∧
      Consistent env g c' := by
  intro s
  induction s with
  | var i nm gr =>
    intro _ c hcon
    refine ⟨c, ?_, hcon⟩
    simp only [Expression.evalC, Expression.erase, evalPure]
    cases h : lookupVar env i nm <;> simp [Except.map]
  | const i v gr =>
    intro _ c hcon
    exact ⟨c, by simp [Expression.evalC, Expression.erase, evalPure, Except.map], hcon⟩
  | binop i op gr e1 e2 ih1 ih2 =>
    intro hmem c hcon
    have hm1 : e1 ∈ g.nodes := mem_nodes_trans (child1_mem_nodes i op gr e1 e2) hmem
    have hm2 : e2 ∈ g.nodes := mem_nodes_trans (child2_mem_nodes i op gr e1 e2) hmem
    cases hc : alookup i c with
    | some v =>
      have hp := hcon i v hc _ hmem (by simp [Expression.nodeId])
      refine ⟨c, ?_, hcon⟩
      simp only [Expression.evalC, hc, hp, Except.map]
    | none =>
      obtain ⟨c1, h1, hcon1⟩ := ih1 hm1 c hcon
      cases hp1 : evalPure env e1.erase with
      | error e =>
        rw [hp1] at h1
        simp [Except.map] at h1
        refine ⟨c, ?_, hcon⟩
        simp only [Expression.evalC, hc, h1, Expression.erase, evalPure, hp1, Except.map]
      | ok r1 =>
        rw [hp1] at h1
        simp [Except.map] at h1
        obtain ⟨c2, h2, hcon2⟩ := ih2 hm2 c1 hcon1
        cases hp2 : evalPure env e2.erase with
        | error e =>
          rw [hp2] at h2
          simp [Except.map] at h2
          refine ⟨c, ?_, hcon⟩
          simp only [Expression.evalC, hc, h1, h2, Expression.erase, evalPure, hp1, hp2,
            Except.map]
        | ok r2 =>
          rw [hp2] at h2
          simp [Except.map] at h2
          refine ⟨(i, op.apply r1 r2) :: c2, ?_, ?_⟩
          · simp only [Expression.evalC, hc, h1, h2, Expression.erase, evalPure, hp1, hp2,
              Except.map]
          · intro i' v' hlook s' hmem' hid
            by_cases hii : i' = i
            · rw [hii] at hlook
              simp [alookup] at hlook
              have hs : s' = AD.Expression.binop i op gr e1 e2 :=
                hwf _ hmem' _ hmem (by rw [hid, hii]; simp [Expression.nodeId])
              subst hs
              rw [← hlook]
              simp [Expression.erase, evalPure, hp1, hp2]
            · simp [alookup, hii] at hlook
              exact hcon2 i' v' hlook s' hmem' hid

/-- Corollary: on a well-formed graph, `eval` computes the reference
semantics of the graph's structure. -/
lemma eval_eq_evalPure {g : AD.Expression} (env : AD.Env) (hwf : AD.WF g) :
    g.eval env = evalPure env g.erase := by
  obtain ⟨c', h, -⟩ := evalC_pure env g hwf g (mem_nodes_self g) [] (consistent_nil env g)
  unfold Expression.eval
  cases hp : evalPure env g.erase <;> rw [hp] at h <;> simp [Except.map] at h <;> simp [h]

/-- The instrumentation is conservative: forgetting the trace recovers
`_eval` exactly. -/
lemma evalC_eq_evalT (s : AD.Expression) : ∀ (env : AD.Env) (c : AD.Cache),
    s.evalC env c =
      Except.map (fun x : ℚ × AD.Cache × List Nat => (x.1, x.2.1)) (s.evalT env c) := by
  induction s with
  | var i nm gr =>
    intro env c
    simp only [Expression.evalC, Expression.evalT]
    cases h : lookupVar env i nm <;> simp [Except.map]
  | const i v gr =>
    intro env c
    simp [Expression.evalC, Expression.evalT, Except.map]
  | binop i op gr e1 e2 ih1 ih2 =>
    intro env c
    simp only [Expression.evalC, Expression.evalT]
    cases hc : alookup i c with
    | some v => simp [Except.map]
    | none =>
      cases ht1 : e1.evalT env c with
      | error e =>
        have h1 := ih1 env c
        rw [ht1] at h1
        simp [Except.map] at h1
        simp [h1, Except.map]
      | ok x =>
        obtain ⟨r1, c1, l1⟩ := x
        have h1 := ih1 env c
        rw [ht1] at h1
        simp [Except.map] at h1
        cases ht2 : e2.evalT env c1 with
        | error e =>
          have h2 := ih2 env c1
          rw [ht2] at h2
          simp [Except.map] at h2
          simp [h1, h2, ht1, ht2, Except.map]
        | ok y =>
          obtain ⟨r2, c2, l2⟩ := y
          have h2 := ih2 env c1
          rw [ht2] at h2
          simp [Except.map] at h2
          simp [h1, h2, ht1, ht2, Except.map]

lemma closed_nil (g : AD.Expression) : Closed g [] := by
  intro i op gr e1 e2 _ hsome
  simp [alookup] at hsome

lemma alookup_cons_isSome {k x : Nat} {v : ℚ} {c : AD.Cache}
    (h : (alookup x c).isSome) : (alookup x ((k, v) :: c)).isSome := by
  by_cases hx : x = k <;> simp [alookup, hx, h]

/-- Counting invariant of the instrumented evaluator: on a well-formed
graph, starting from a closed cache, a successful `_eval` performs the
arithmetic of each node at most once (the trace has no duplicates), only
at cache-miss identities, and afterwards every `Binop` identity of the
evaluated node is cached. -/
lemma evalT_count (env : AD.Env) (g : AD.Expression) (hwf : AD.WF g) :
    ∀ s : AD.Expression, s ∈ g.nodes → ∀ c, Closed g c →
    ∀ v c' l, s.evalT env c = .ok (v, c', l) →
      l.Nodup ∧
      (∀ i ∈ l, alookup i c = none) ∧
      (∀ i ∈ l, i ∈ s.binopIds) ∧
      (∀ i, (alookup i c').isSome ↔ ((alookup i c).isSome ∨ i ∈ l)) ∧
      (∀ i ∈ s.binopIds, (alookup i c').isSome) ∧
      Closed g c' := by
  intro s
  induction s with
  | var i nm gr =>
    intro _ c hclosed v c' l hev
    simp only [Expression.evalT] at hev
    cases h : lookupVar env i nm <;> rw [h] at hev <;> simp at hev
    obtain ⟨-, h2, h3⟩ := hev
    subst h2; subst h3
    exact ⟨by simp, by simp, by simp, by simp, by simp [Expression.binopIds], hclosed⟩
  | const i v0 gr =>
    intro _ c hclosed v c' l hev
    simp only [Expression.evalT] at hev
    simp at hev
    obtain ⟨-, h2, h3⟩ := hev
    subst h2; subst h3
    exact ⟨by simp, by simp, by simp, by simp, by simp [Expression.binopIds], hclosed⟩
  | binop i op gr e1 e2 ih1 ih2 =>
    intro hmem c hclosed v c' l hev
    have hm1 : e1 ∈ g.nodes := mem_nodes_trans (child1_mem_nodes i op gr e1 e2) hmem
    have hm2 : e2 ∈ g.nodes := mem_nodes_trans (child2_mem_nodes i op gr e1 e2) hmem
    simp only [Expression.evalT] at hev
    cases hc : alookup i c with
    | some w =>
      rw [hc] at hev
      simp at hev
      obtain ⟨-, h2, h3⟩ := hev
      subst h2; subst h3
      refine ⟨by simp, by simp, by simp, by simp, ?_, hclosed⟩
      exact hclosed i op gr e1 e2 hmem (by simp [hc])
    | none =>
      rw [hc] at hev
      cases ht1 : e1.evalT env c with
      | error e => rw [ht1] at hev; simp at hev
      | ok x =>
        obtain ⟨r1, c1, l1⟩ := x
        rw [ht1] at hev
        dsimp only at hev
        cases ht2 : e2.evalT env c1 with
        | error e => rw [ht2] at hev; simp at hev
        | ok y =>
          obtain ⟨r2, c2, l2⟩ := y
          rw [ht2] at hev
          simp at hev
          obtain ⟨-, h2, h3⟩ := hev
          subst h2; subst h3
          obtain ⟨nd1, fresh1, sub1, iff1, ids1, closed1⟩ := ih1 hm1 c hclosed r1 c1 l1 ht1
          obtain ⟨nd2, fresh2, sub2, iff2, ids2, closed2⟩ := ih2 hm2 c1 closed1 r2 c2 l2 ht2
          have hni := nodeId_not_in_child_binopIds hwf hmem
          have hil1 : i ∉ l1 := fun h => hni.1 (sub1 i h)
          have hil2 : i ∉ l2 := fun h => hni.2 (sub2 i h)
          have hdisj : ∀ x, x ∈ l1 → x ∈ l2 → False := by
            intro x hx1 hx2
            have hs1 : (alookup x c1).isSome := (iff1 x).2 (Or.inr hx1)
            rw [fresh2 x hx2] at hs1
            simp at hs1
          have hfresh : ∀ x ∈ l1 ++ (l2 ++ [i]), alookup x c = none := by
            intro x hx
            simp only [List.mem_append, List.mem_singleton] at hx
            rcases hx with hx | hx | hx
            · exact fresh1 x hx
            · have h1 : ¬ (alookup x c1).isSome := by simp [fresh2 x hx]
              rw [iff1] at h1
              push_neg at h1
              exact Option.not_isSome_iff_eq_none.mp h1.1
            · subst hx; exact hc
          have hids : ∀ x ∈ (AD.Expression.binop i op gr e1 e2).binopIds,
              (alookup x ((i, op.apply r1 r2) :: c2)).isSome := by
            intro x hx
            simp [Expression.binopIds] at hx
            rcases hx with hx | hx | hx
            · subst hx; simp [alookup]
            · exact alookup_cons_isSome ((iff2 x).2 (Or.inl (ids1 x hx)))
            · exact alookup_cons_isSome (ids2 x hx)
          refine ⟨?_, hfresh, ?_, ?_, hids, ?_⟩
          · -- no duplicates
            apply List.Nodup.append nd1
            · apply List.Nodup.append nd2 (by simp)
              intro x hx2 hxi
              simp only [List.mem_singleton] at hxi
              subst hxi
              exact hil2 hx2
            · intro x hx1 hx2
              simp only [List.mem_append, List.mem_singleton] at hx2
              rcases hx2 with hx2 | hx2
              · exact hdisj x hx1 hx2
              · subst hx2; exact hil1 hx1
          · -- trace is a subset of the reachable Binop identities
            intro x hx
            simp only [List.mem_append, List.mem_singleton] at hx
            simp only [Expression.binopIds, List.mem_cons, List.mem_append]
            rcases hx with hx | hx | hx
            · exact Or.inr (Or.inl (sub1 x hx))
            · exact Or.inr (Or.inr (sub2 x hx))
            · exact Or.inl hx
          · -- exact characterization of the new cache's keys
            intro x
            by_cases hxi : x = i
            · subst hxi
              simp [alookup]
            · simp only [alookup, hxi, if_false]
              rw [iff2, iff1]
              simp only [List.mem_append, List.mem_singleton, hxi, or_false]
              tauto
          · -- closure of the new cache
            intro i0 op0 gr0 f1 f2 hmem0 hsome0 j hj
            by_cases hi0 : i0 = i
            · have heq : AD.Expression.binop i0 op0 gr0 f1 f2 =
                  AD.Expression.binop i op gr e1 e2 :=
                hwf _ hmem0 _ hmem (by simp [Expression.nodeId, hi0])
              rw [heq] at hj
              exact hids j hj
            · have hsome0' : (alookup i0 c2).isSome := by
                simp only [alookup, hi0, if_false] at hsome0
                exact hsome0
              exact alookup_cons_isSome (closed2 i0 op0 gr0 f1 f2 hmem0 hsome0' j hj)

/- Lemmas about unbound variables at the level of the reference semantics. -/

/-- A successful evaluation resolves every variable of the expression. -/
lemma evalPure_ok_bound {env : AD.Env} {p : PExpr} {v : ℚ} (h : evalPure env p = .ok v) :
    ∀ i nm, (i, nm) ∈ p.vars → (lookupVar env i nm).isSome := by
  induction p generalizing v with
  | var j nm' =>
    intro i nm hmem
    simp [PExpr.vars] at hmem
    obtain ⟨h1, h2⟩ := hmem
    subst h1; subst h2
    simp only [evalPure] at h
    cases hl : lookupVar env i nm <;> rw [hl] at h <;> simp at h ⊢
  | const w => intro i nm hmem; simp [PExpr.vars] at hmem
  | binop op e1 e2 ih1 ih2 =>
    intro i nm hmem
    simp only [evalPure] at h
    cases h1 : evalPure env e1 with
    | error e => rw [h1] at h; simp at h
    | ok r1 =>
      rw [h1] at h
      cases h2 : evalPure env e2 with
      | error e => rw [h2] at h; simp at h
      | ok r2 =>
        simp [PExpr.vars] at hmem
        rcases hmem with hmem | hmem
        · exact ih1 h1 i nm hmem
        · exact ih2 h2 i nm hmem

/-- A failing evaluation names a variable of the expression that is indeed
absent from the environment under both keys. -/
lemma evalPure_error_names {env : AD.Env} {p : PExpr} {nm : String}
    (h : evalPure env p = .error (.unboundVariable nm)) :
    ∃ i, (i, nm) ∈ p.vars ∧ lookupVar env i nm = none := by
  induction p with
  | var j nm' =>
    simp only [evalPure] at h
    cases hl : lookupVar env j nm' <;> rw [hl] at h <;> simp at h
    subst h
    exact ⟨j, by simp [PExpr.vars], hl⟩
  | const w => simp [evalPure] at h
  | binop op e1 e2 ih1 ih2 =>
    simp only [evalPure] at h
    cases h1 : evalPure env e1 with
    | error e =>
      rw [h1] at h
      simp at h
      subst h
      obtain ⟨i, hmem, hnone⟩ := ih1 h1
      exact ⟨i, by simp [PExpr.vars]; exact Or.inl hmem, hnone⟩
    | ok r1 =>
      rw [h1] at h
      cases h2 : evalPure env e2 with
      | error e =>
        rw [h2] at h
        simp at h
        subst h
        obtain ⟨i, hmem, hnone⟩ := ih2 h2
        exact ⟨i, by simp [PExpr.vars]; exact Or.inr hmem, hnone⟩
      | ok r2 => rw [h2] at h; simp at h

/-- Reachable `Variable` nodes appear among the variables of the erased
structure. -/
lemma mem_vars_of_mem_nodes {g : AD.Expression} {i : Nat} {nm : String} {gr : Bool}
    (h : AD.Expression.var i nm gr ∈ g.nodes) : (i, nm) ∈ g.erase.vars := by
  induction g with
  | var j nm' gr' =>
    simp [Expression.nodes] at h
    obtain ⟨h1, h2, -⟩ := h
    subst h1; subst h2
    simp [Expression.erase, PExpr.vars]
  | const j w gr' => simp [Expression.nodes] at h
  | binop j op gr' e1 e2 ih1 ih2 =>
    simp [Expression.nodes] at h
    simp [Expression.erase, PExpr.vars]
    rcases h with h | h
    · exact Or.inl (ih1 h)
    · exact Or.inr (ih2 h)

/-- Conversely, every variable of the erased structure comes from a
reachable `Variable` node. -/
lemma mem_nodes_of_mem_vars {g : AD.Expression} {i : Nat} {nm : String}
    (h : (i, nm) ∈ g.erase.vars) : ∃ gr, AD.Expression.var i nm gr ∈ g.nodes := by
  induction g with
  | var j nm' gr' =>
    simp [Expression.erase, PExpr.vars] at h
    obtain ⟨h1, h2⟩ := h
    subst h1; subst h2
    exact ⟨gr', by simp [Expression.nodes]⟩
  | const j w gr' => simp [Expression.erase, PExpr.vars] at h
  | binop j op gr' e1 e2 ih1 ih2 =>
    simp [Expression.erase, PExpr.vars] at h
    rcases h with h | h
    · obtain ⟨gr0, hmem⟩ := ih1 h
      exact ⟨gr0, mem_nodes_trans hmem (child1_mem_nodes j op gr' e1 e2)⟩
    · obtain ⟨gr0, hmem⟩ := ih2 h
      exact ⟨gr0, mem_nodes_trans hmem (child2_mem_nodes j op gr' e1 e2)⟩

lemma evalC_eraseGrad (s : AD.Expression) : ∀ (env : AD.Env) (c : AD.Cache),
    s.eraseGrad.evalC env c = s.evalC env c := by
  induction s with
  | var i nm gr => intro env c; simp [Expression.eraseGrad, Expression.evalC]
  | const i v gr => intro env c; simp [Expression.eraseGrad, Expression.evalC]
  | binop i op gr e1 e2 ih1 ih2 =>
    intro env c
    simp only [Expression.eraseGrad, Expression.evalC]
    cases hc : alookup i c with
    | some v => rfl
    | none =>
      rw [ih1]
      cases h1 : e1.evalC env c with
      | error e => rfl
      | ok x =>
        obtain ⟨r1, c1⟩ := x
        dsimp only
        rw [ih2]

lemma dC_eraseGrad (s : AD.Expression) : ∀ (env : AD.Env) (ec dc : AD.Cache),
    s.eraseGrad.dC env ec dc = s.dC env ec dc := by
  induction s with
  | var i nm gr => intro env ec dc; simp [Expression.eraseGrad, Expression.dC]
  | const i v gr => intro env ec dc; simp [Expression.eraseGrad, Expression.dC]
  | binop i op gr e1 e2 ih1 ih2 =>
    intro env ec dc
    simp only [Expression.eraseGrad, Expression.dC]
    cases hc : alookup i dc with
    | some v => rfl
    | none =>
      rw [ih1]
      cases h1 : e1.dC env ec dc with
      | error e => rfl
      | ok x =>
        obtain ⟨d1, ec1, dc1⟩ := x
        dsimp only
        rw [ih2]
        cases h2 : e2.dC env ec1 dc1 with
        | error e => rfl
        | ok y =>
          obtain ⟨d2, ec2, dc2⟩ := y
          dsimp only
          cases op <;> dsimp only <;> rw [evalC_eraseGrad] <;>
            cases h3 : e1.evalC env ec2 <;> dsimp only <;> try rfl
          all_goals
            (rename_i x3; obtain ⟨r1, ec3⟩ := x3; dsimp only; rw [evalC_eraseGrad])

/-- Any fuel of at least the node count makes the bounded evaluator
complete, with the value `_eval` computes. -/
lemma evalFuel_complete (s : AD.Expression) : ∀ (n : Nat), s.size ≤ n →
    ∀ (env : AD.Env) (c : AD.Cache), evalFuel n s env c = some (s.evalC env c) := by
  induction s with
  | var i nm gr =>
    intro n hn env c
    obtain ⟨m, rfl⟩ : ∃ m, n = m + 1 := by
      cases n
      · simp [Expression.size] at hn
      · exact ⟨_, rfl⟩
    simp only [evalFuel, Expression.evalC]
    cases h : lookupVar env i nm <;> simp
  | const i v gr =>
    intro n hn env c
    obtain ⟨m, rfl⟩ : ∃ m, n = m + 1 := by
      cases n
      · simp [Expression.size] at hn
      · exact ⟨_, rfl⟩
    simp [evalFuel, Expression.evalC]
  | binop i op gr e1 e2 ih1 ih2 =>
    intro n hn env c
    obtain ⟨m, rfl⟩ : ∃ m, n = m + 1 := by
      cases n
      · simp [Expression.size] at hn
      · exact ⟨_, rfl⟩
    have hm1 : e1.size ≤ m := by simp [Expression.size] at hn; have := size_pos e2; omega
    have hm2 : e2.size ≤ m := by simp [Expression.size] at hn; have := size_pos e1; omega
    simp only [evalFuel, Expression.evalC]
    cases hc : alookup i c with
    | some v => rfl
    | none =>
      rw [ih1 m hm1 env c]
      cases h1 : e1.evalC env c with
      | error e => rfl
      | ok x =>
        obtain ⟨r1, c1⟩ := x
        dsimp only
        rw [ih2 m hm2 env c1]
        cases h2 : e2.evalC env c1 with
        | error e => rfl
        | ok y => obtain ⟨r2, c2⟩ := y; rfl

/-- Any fuel of at least the node count makes the bounded differentiator
complete, with the value `_d` computes. -/
lemma dFuel_complete (s : AD.Expression) : ∀ (n : Nat), s.size ≤ n →
    ∀ (env : AD.Env) (ec dc : AD.Cache), dFuel n s env ec dc = some (s.dC env ec dc) := by
  induction s with
  | var i nm gr =>
    intro n hn env ec dc
    obtain ⟨m, rfl⟩ : ∃ m, n = m + 1 := by
      cases n
      · simp [Expression.size] at hn
      · exact ⟨_, rfl⟩
    simp [dFuel, Expression.dC]
  | const i v gr =>
    intro n hn env ec dc
    obtain ⟨m, rfl⟩ : ∃ m, n = m + 1 := by
      cases n
      · simp [Expression.size] at hn
      · exact ⟨_, rfl⟩
    simp [dFuel, Expression.dC]
  | binop i op gr e1 e2 ih1 ih2 =>
    intro n hn env ec dc
    obtain ⟨m, rfl⟩ : ∃ m, n = m + 1 := by
      cases n
      · simp [Expression.size] at hn
      · exact ⟨_, rfl⟩
    have hm1 : e1.size ≤ m := by simp [Expression.size] at hn; have := size_pos e2; omega
    have hm2 : e2.size ≤ m := by simp [Expression.size] at hn; have := size_pos e1; omega
    simp only [dFuel, Expression.dC]
    cases hc : alookup i dc with
    | some v => rfl
    | none =>
      rw [ih1 m hm1 env ec dc]
      cases h1 : e1.dC env ec dc with
      | error e => rfl
      | ok x =>
        obtain ⟨d1, ec1, dc1⟩ := x
        dsimp only
        rw [ih2 m hm2 env ec1 dc1]
        cases h2 : e2.dC env ec1 dc1 with
        | error e => rfl
        | ok y =>
          obtain ⟨d2, ec2, dc2⟩ := y
          dsimp only
          cases op <;> dsimp only <;> try rfl
          all_goals
            rw [evalFuel_complete e1 m hm1 env ec2]
          all_goals
            cases h3 : e1.evalC env ec2 with
            | error e => rfl
            | ok z =>
              obtain ⟨r1, ec3⟩ := z
              dsimp only
              rw [evalFuel_complete e2 m hm2 env ec3]
              cases h4 : e2.evalC env ec3 with
              | error e => rfl
              | ok w => obtain ⟨r2, ec4⟩ := w; rfl


/- Claim theorems. -/

/-- C1 (amended): evaluating an expression that contains a `Variable` whose
instance identity and name are both absent from the environment fails with
`UnboundVariable` naming an unbound variable of the expression — any
unresolved reachable `Variable` aborts the whole `eval` call.
Differentiation, by contrast, does not consult the environment at
`Variable` nodes: `_d` of a bare `Variable` returns `1.0` regardless of the
environment, so differentiation fails only where it must evaluate operands
(the product and quotient rules). -/
theorem C1_unbound_eval_aborts (g : AD.Expression) (env : AD.Env)
    (i : Nat) (nm : String) (gr : Bool) (hwf : AD.WF g)
    (hmem : AD.Expression.var i nm gr ∈ g.nodes)
    (hlook : lookupVar env i nm = none) :
    (∃ nm' i' gr', g.eval env = .error (.unboundVariable nm') ∧
        AD.Expression.var i' nm' gr' ∈ g.nodes ∧ lookupVar env i' nm' = none) ∧
    (AD.Expression.var i nm gr).d env = .ok 1 := by
  constructor
  · have hpure := eval_eq_evalPure env hwf
    have hv : (i, nm) ∈ g.erase.vars := mem_vars_of_mem_nodes hmem
    cases hp : evalPure env g.erase with
    | ok v =>
      exfalso
      have := evalPure_ok_bound hp i nm hv
      rw [hlook] at this
      simp at this
    | error e =>
      cases e with
      | unboundVariable nm' =>
        obtain ⟨i', hmem', hnone'⟩ := evalPure_error_names hp
        obtain ⟨gr', hnode⟩ := mem_nodes_of_mem_vars hmem'
        exact ⟨nm', i', gr', by rw [hpure, hp], hnode, hnone'⟩
  · simp [Expression.d, Expression.dC]

/-- Witness for C1: the expression `Variable('x3')` against the empty
environment. -/
theorem C1_witness :
    (∃ nm' i' gr',
        (AD.Expression.var 0 "x3" true).eval ⟨[], []⟩ = .error (.unboundVariable nm') ∧
        AD.Expression.var i' nm' gr' ∈ (AD.Expression.var 0 "x3" true).nodes ∧
        lookupVar ⟨[], []⟩ i' nm' = none) ∧
    (AD.Expression.var 0 "x3" true).d ⟨[], []⟩ = .ok 1 :=
  C1_unbound_eval_aborts (AD.Expression.var 0 "x3" true) ⟨[], []⟩ 0 "x3" true
    (by decide) (by decide) rfl

/-- Counterexample to C1 as stated: differentiating the expression
`Variable('x3')` against an environment lacking both the instance and the
name does not fail — `_d` returns `1.0` and no `UnboundVariable` error is
raised. -/
theorem C1_counterexample :
    (AD.Expression.var 0 "x3" true).d ⟨[], []⟩ = .ok 1 ∧
    (AD.Expression.var 0 "x3" true).d ⟨[], []⟩ ≠
      .error (.unboundVariable "x3") := by
  constructor <;> simp [Expression.d, Expression.dC]

/-- C2: with a variable bound to `v` (and `v ≠ 0` for the division case),
differentiation returns `1` for the variable itself, `0` for a constant
`k`, `2` for `x + x`, `2·v` for `x * x`, and `-k/v²` for `k / x`. -/
theorem C2_diff_rules (i : Nat) (nm : String) (gr : Bool) (j : Nat) (k : ℚ)
    (kg : Bool) (a1 a2 a3 : Nat) (g1 g2 g3 : Bool) (env : AD.Env) (v : ℚ)
    (hx : lookupVar env i nm = some v) (hv : v ≠ 0) :
    (AD.Expression.var i nm gr).d env = .ok 1 ∧
    (AD.Expression.const j k kg).d env = .ok 0 ∧
    (AD.Expression.binop a1 .add g1 (.var i nm gr) (.var i nm gr)).d env = .ok 2 ∧
    (AD.Expression.binop a2 .mul g2 (.var i nm gr) (.var i nm gr)).d env = .ok (2 * v) ∧
    (AD.Expression.binop a3 .div g3 (.const j k kg) (.var i nm gr)).d env =
      .ok (-(k / v ^ 2)) := by
  refine ⟨?_, ?_, ?_, ?_, ?_⟩
  · simp [Expression.d, Expression.dC]
  · simp [Expression.d, Expression.dC]
  · simp [Expression.d, Expression.dC, alookup]
    norm_num
  · simp [Expression.d, Expression.dC, Expression.evalC, alookup, hx]
    ring
  · simp [Expression.d, Expression.dC, Expression.evalC, alookup, hx]
    ring

/-- Witness for C2 at `x` bound (by instance) to `5`. -/
theorem C2_witness :
    (AD.Expression.var 0 "x" true).d ⟨[(0, 5)], []⟩ = .ok 1 ∧
    (AD.Expression.const 1 3 false).d ⟨[(0, 5)], []⟩ = .ok 0 ∧
    (AD.Expression.binop 2 .add true (.var 0 "x" true) (.var 0 "x" true)).d
      ⟨[(0, 5)], []⟩ = .ok 2 ∧
    (AD.Expression.binop 3 .mul true (.var 0 "x" true) (.var 0 "x" true)).d
      ⟨[(0, 5)], []⟩ = .ok (2 * 5) ∧
    (AD.Expression.binop 4 .div true (.const 1 3 false) (.var 0 "x" true)).d
      ⟨[(0, 5)], []⟩ = .ok (-(3 / 5 ^ 2)) :=
  C2_diff_rules 0 "x" true 1 3 false 2 3 4 true true true ⟨[(0, 5)], []⟩ 5
    rfl (by norm_num)

/-- C3: on well-formed graphs, evaluation depends only on the structure —
a graph with a shared subexpression evaluates to the same result as the
graph with the shared node duplicated into independent structurally
identical nodes — and within one successful call the arithmetic of each
`Binop` identity is performed exactly once (later references are served
from the value cache keyed by node identity). -/
theorem C3_memoization (g g' : AD.Expression) (env : AD.Env)
    (hwf : AD.WF g) (hwf' : AD.WF g') (he : g.erase = g'.erase) :
    g.eval env = g'.eval env ∧
    ∀ v c l, g.evalT env [] = .ok (v, c, l) → ∀ i ∈ g.binopIds, l.count i = 1 := by
  constructor
  · rw [eval_eq_evalPure env hwf, eval_eq_evalPure env hwf', he]
  · intro v c l hev i hi
    obtain ⟨nd, fresh, sub, hiff, hids, hcl⟩ :=
      evalT_count env g hwf g (mem_nodes_self g) [] (closed_nil g) v c l hev
    have hsome := hids i hi
    rw [hiff] at hsome
    have hmem : i ∈ l := by
      rcases hsome with h | h
      · simp [alookup] at h
      · exact h
    exact List.count_eq_one_of_mem nd hmem

/-- Witness for C3: `s + s` with `s = a * b` shared, against the graph with
`s` duplicated; `a = 2`, `b = 3`. -/
theorem C3_witness :
    (AD.Expression.binop 4 .add true
        (AD.Expression.binop 3 .mul true (.var 1 "a" true) (.var 2 "b" true))
        (AD.Expression.binop 3 .mul true (.var 1 "a" true) (.var 2 "b" true))).eval
        ⟨[(1, 2), (2, 3)], []⟩ =
      (AD.Expression.binop 6 .add true
        (AD.Expression.binop 3 .mul true (.var 1 "a" true) (.var 2 "b" true))
        (AD.Expression.binop 5 .mul true (.var 1 "a" true) (.var 2 "b" true))).eval
        ⟨[(1, 2), (2, 3)], []⟩ ∧
    ∀ v c l,
      (AD.Expression.binop 4 .add true
        (AD.Expression.binop 3 .mul true (.var 1 "a" true) (.var 2 "b" true))
        (AD.Expression.binop 3 .mul true (.var 1 "a" true) (.var 2 "b" true))).evalT
        ⟨[(1, 2), (2, 3)], []⟩ [] = .ok (v, c, l) →
      ∀ i ∈ (AD.Expression.binop 4 .add true
        (AD.Expression.binop 3 .mul true (.var 1 "a" true) (.var 2 "b" true))
        (AD.Expression.binop 3 .mul true (.var 1 "a" true) (.var 2 "b" true))).binopIds,
        l.count i = 1 :=
  C3_memoization _ _ _ (by decide) (by decide) (by decide)

/-- C4 (amended): for a `BinaryOp` node produced by operator composition of
two expressions, `grad` is the logical AND of both children's flags; but
when one operand is a raw numeric literal coerced to a `Constant`, `grad`
is the expression operand's flag alone — the coerced `Constant`'s `False`
flag is not consulted. -/
theorem C4_grad_flag (self o : AD.Expression) (v : ℚ) (i j : Nat) :
    ((self.pyAdd (.expr o) i j).gradOf = (o.gradOf && self.gradOf) ∧
     (self.pyAdd (.lit v) i j).gradOf = self.gradOf) ∧
    ((self.pyRadd (.expr o) i j).gradOf = (o.gradOf && self.gradOf) ∧
     (self.pyRadd (.lit v) i j).gradOf = self.gradOf) ∧
    ((self.pySub (.expr o) i j).gradOf = (o.gradOf && self.gradOf) ∧
     (self.pySub (.lit v) i j).gradOf = self.gradOf) ∧
    ((self.pyRsub (.expr o) i j).gradOf = (o.gradOf && self.gradOf) ∧
     (self.pyRsub (.lit v) i j).gradOf = self.gradOf) ∧
    ((self.pyMul (.expr o) i j).gradOf = (o.gradOf && self.gradOf) ∧
     (self.pyMul (.lit v) i j).gradOf = self.gradOf) ∧
    ((self.pyRmul (.expr o) i j).gradOf = (o.gradOf && self.gradOf) ∧
     (self.pyRmul (.lit v) i j).gradOf = self.gradOf) := by
  refine ⟨⟨rfl, rfl⟩, ⟨rfl, rfl⟩, ⟨rfl, rfl⟩, ⟨rfl, rfl⟩, ⟨rfl, rfl⟩, ⟨rfl, rfl⟩⟩

/-- Counterexample to C4 as stated: `Variable('x') + 5` coerces `5` to a
`Constant` with `grad=False`; the resulting node's children carry flags
`true` and `false`, whose logical AND is `false`, yet the node's `grad`
flag is `true` (the source sets `grad=self.grad` in the coercion branch). -/
theorem C4_counterexample :
    AD.Expression.pyAdd (.var 0 "x" true) (.lit 5) 1 2 =
      AD.Expression.binop 1 .add true (.var 0 "x" true) (.const 2 5 false) ∧
    (AD.Expression.pyAdd (.var 0 "x" true) (.lit 5) 1 2).gradOf = true ∧
    ((AD.Expression.var 0 "x" true).gradOf &&
      (AD.Expression.const 2 5 false).gradOf) = false ∧
    (AD.Expression.pyAdd (.var 0 "x" true) (.lit 5) 1 2).gradOf ≠
      ((AD.Expression.var 0 "x" true).gradOf &&
       (AD.Expression.const 2 5 false).gradOf) :=
  ⟨rfl, rfl, rfl, by simp [Expression.pyAdd, Expression.gradOf]⟩

/-- C5: when the environment binds both the `Variable` instance and its
name string to different values, evaluation returns the value bound to the
instance — instance lookup takes precedence. -/
theorem C5_instance_precedence (i : Nat) (nm : String) (gr : Bool)
    (env : AD.Env) (v1 v2 : ℚ)
    (h1 : alookup i env.byInst = some v1) (h2 : alookup nm env.byName = some v2)
    (hne : v1 ≠ v2) :
    (AD.Expression.var i nm gr).eval env = .ok v1 := by
  simp [Expression.eval, Expression.evalC, lookupVar, h1]

/-- Witness for C5: instance bound to `7`, name bound to `9`. -/
theorem C5_witness :
    (AD.Expression.var 0 "x" true).eval ⟨[(0, 7)], [("x", 9)]⟩ = .ok 7 :=
  C5_instance_precedence 0 "x" true ⟨[(0, 7)], [("x", 9)]⟩ 7 9 rfl rfl (by norm_num)

/-- C6: literal operands on either side of subtraction are coerced to
`Constant` nodes with correct ordering: `Constant(1.0) - 5` evaluates to
`-4`, `5 - Constant(1.0)` (via `__rsub__`) evaluates to `4`, and
`Constant(1.0) - (-5)` evaluates to `6`, all under the empty environment. -/
theorem C6_literal_coercion :
    (AD.Expression.pySub (.const 0 1 false) (.lit 5) 1 2).eval ⟨[], []⟩ = .ok (-4) ∧
    (AD.Expression.pyRsub (.const 0 1 false) (.lit 5) 1 2).eval ⟨[], []⟩ = .ok 4 ∧
    (AD.Expression.pySub (.const 0 1 false) (.lit (-5)) 1 2).eval ⟨[], []⟩ = .ok 6 := by
  refine ⟨?_, ?_, ?_⟩ <;>
    norm_num [Expression.eval, Expression.evalC, Expression.pySub,
      Expression.pyRsub, alookup, Op.apply]

/-- C7: evaluation is idempotent — two successive `eval` calls on the same
root with the same environment return identical results, since each call
allocates fresh empty caches and no call mutates the graph; moreover the
result is so stable that even re-running `_eval` on the final cache of a
previous call (the leakage the design rules out) would return the same
value. -/
theorem C7_idempotent (g : AD.Expression) (env : AD.Env) (hwf : AD.WF g) :
    g.eval env = g.eval env ∧ g.d env = g.d env ∧
    ∀ v c1, g.evalC env [] = .ok (v, c1) → ∃ c2, g.evalC env c1 = .ok (v, c2) := by
  refine ⟨rfl, rfl, ?_⟩
  intro v c1 hev
  obtain ⟨c', h, hcon⟩ :=
    evalC_pure env g hwf g (mem_nodes_self g) [] (consistent_nil env g)
  cases hp : evalPure env g.erase with
  | error e =>
    rw [hp] at h
    simp [Except.map] at h
    rw [h] at hev
    simp at hev
  | ok w =>
    rw [hp] at h
    simp [Except.map] at h
    rw [h] at hev
    simp at hev
    obtain ⟨hw, hc⟩ := hev
    subst hw
    subst hc
    obtain ⟨c2, h2, -⟩ := evalC_pure env g hwf g (mem_nodes_self g) c' hcon
    rw [hp] at h2
    simp [Except.map] at h2
    exact ⟨c2, h2⟩

/-- Witness for C7: `x + x` with `x` bound by name to `3`. -/
theorem C7_witness :
    (AD.Expression.binop 1 .add true (.var 0 "x" true) (.var 0 "x" true)).eval
        ⟨[], [("x", 3)]⟩ =
      (AD.Expression.binop 1 .add true (.var 0 "x" true) (.var 0 "x" true)).eval
        ⟨[], [("x", 3)]⟩ ∧
    (AD.Expression.binop 1 .add true (.var 0 "x" true) (.var 0 "x" true)).d
        ⟨[], [("x", 3)]⟩ =
      (AD.Expression.binop 1 .add true (.var 0 "x" true) (.var 0 "x" true)).d
        ⟨[], [("x", 3)]⟩ ∧
    ∀ v c1,
      (AD.Expression.binop 1 .add true (.var 0 "x" true) (.var 0 "x" true)).evalC
        ⟨[], [("x", 3)]⟩ [] = .ok (v, c1) →
      ∃ c2, (AD.Expression.binop 1 .add true (.var 0 "x" true)
        (.var 0 "x" true)).evalC ⟨[], [("x", 3)]⟩ c1 = .ok (v, c2) :=
  C7_idempotent (AD.Expression.binop 1 .add true (.var 0 "x" true) (.var 0 "x" true))
    ⟨[], [("x", 3)]⟩ (by decide)

/-- C8: the `grad` flag is informational only — two graphs identical except
for the `grad` flags stored on their nodes evaluate and differentiate to
equal results under every environment; neither operation consults the
flag. -/
theorem C8_grad_flag_immaterial (g g' : AD.Expression) (env : AD.Env)
    (h : g.eraseGrad = g'.eraseGrad) :
    g.eval env = g'.eval env ∧ g.d env = g'.d env := by
  constructor
  · unfold Expression.eval
    rw [← evalC_eraseGrad g, h, evalC_eraseGrad]
  · unfold Expression.d
    rw [← dC_eraseGrad g, h, dC_eraseGrad]

/-- Witness for C8: `x * x` with all flags `true` against the same graph
with all flags `false`, under `x = 3` bound by name. -/
theorem C8_witness :
    (AD.Expression.binop 1 .mul true (.var 0 "x" true) (.var 0 "x" true)).eval
        ⟨[], [("x", 3)]⟩ =
      (AD.Expression.binop 1 .mul false (.var 0 "x" false) (.var 0 "x" false)).eval
        ⟨[], [("x", 3)]⟩ ∧
    (AD.Expression.binop 1 .mul true (.var 0 "x" true) (.var 0 "x" true)).d
        ⟨[], [("x", 3)]⟩ =
      (AD.Expression.binop 1 .mul false (.var 0 "x" false) (.var 0 "x" false)).d
        ⟨[], [("x", 3)]⟩ :=
  C8_grad_flag_immaterial
    (AD.Expression.binop 1 .mul true (.var 0 "x" true) (.var 0 "x" true))
    (AD.Expression.binop 1 .mul false (.var 0 "x" false) (.var 0 "x" false))
    ⟨[], [("x", 3)]⟩ rfl

/-- C9: evaluation and differentiation terminate on every finite acyclic
graph: the fuel-bounded evaluators complete within a recursion budget of
the graph's node count, returning exactly what `_eval` and `_d` compute. -/
theorem C9_terminates (g : AD.Expression) (env : AD.Env) :
    evalFuel g.size g env [] = some (g.evalC env []) ∧
    dFuel g.size g env [] [] = some (g.dC env [] []) :=
  ⟨evalFuel_complete g g.size le_rfl env [],
   dFuel_complete g g.size le_rfl env [] []⟩

/-- C10: the operator interface of class `Expression` defines no
`__truediv__` or `__rtruediv__`, so `e / n` and `n / e` find no handler
(Python raises `TypeError`); no operator composition ever constructs a
`Division` node; yet `Division` nodes built by calling the constructor
directly evaluate with the full division rule. -/
theorem C10_no_division_operator (self : AD.Expression) (other : Operand)
    (i j a b : Nat) (gr g1 g2 : Bool) (v1 v2 : ℚ) (env : AD.Env) :
    dispatch .truediv self other i j = none ∧
    dispatch .rtruediv self other i j = none ∧
    (∀ op r, dispatch op self other i j = some r → r.isDiv = false) ∧
    (AD.Expression.binop i .div gr (.const a v1 g1) (.const b v2 g2)).eval env =
      .ok (v1 / v2) := by
  refine ⟨rfl, rfl, ?_, ?_⟩
  · intro op r hr
    cases other <;> cases op <;>
      simp [dispatch, Expression.pyAdd, Expression.pyRadd, Expression.pySub,
        Expression.pyRsub, Expression.pyMul, Expression.pyRmul] at hr <;>
      simp [← hr, Expression.isDiv]
  · simp [Expression.eval, Expression.evalC, alookup, Op.apply]


end AD
